import Mathlib

/-!
Verification development for the `PagePaths` module (`page_paths.py`): a
Google-Analytics page-path extractor.  Strings from the Python source are
embedded as lists of characters (`PyStr`); the Analytics response, the row
filtering, the pagination loop and the CSV persistence layer are embedded
as executable Lean functions.  Python exceptions (IndexError / ValueError)
are embedded with `Except`, the exceptional value carrying the state the
mutable containers hold at the moment of the raise.
-/

namespace PagePaths

/-- Python strings are embedded as lists of characters. -/
abbrev PyStr := List Char

/-- Decimal (Unicode Nd) digit test: the characters `int()` accepts.  That
is more than ASCII: CPython converts every Unicode Nd digit
(`int('٥') = 5`).  The character universe of this development holds the
ASCII digits `'0'`-`'9'` and, as representatives of the non-ASCII Nd
digits, the Arabic-Indic digits `'٠'`-`'٩'`. -/
def pyCharIsDecimal (c : Char) : Bool :=
  c.isDigit || (('٠' : Char) ≤ c && c ≤ ('٩' : Char))

/-- Model of CPython's per-character `str.isdigit` test.  Python's `isdigit`
accepts every Nd digit and additionally the Numeric_Type=Digit characters
that `int()` rejects; the Latin-1 superscripts `'¹'`, `'²'`, `'³'` stand in
for those extra characters in the modelled universe. -/
def pyCharIsDigit (c : Char) : Bool :=
  pyCharIsDecimal c || c == '¹' || c == '²' || c == '³'

/-- Model of Python's `str.isdigit()`: nonempty and every character a digit. -/
def pyIsDigit (s : PyStr) : Bool := !s.isEmpty && s.all pyCharIsDigit

/-- Numeric value of one decimal digit of the modelled universe. -/
def pyDigitVal (c : Char) : Nat :=
  if c.isDigit then c.toNat - '0'.toNat
  else if ('٠' : Char) ≤ c ∧ c ≤ ('٩' : Char) then c.toNat - ('٠' : Char).toNat
  else 0

/-- Numeric value of a decimal digit string, most significant digit first. -/
def digitsToNat (l : PyStr) : Nat := l.foldl (fun a c => 10 * a + pyDigitVal c) 0

/-- Model of CPython `int(x)` on a string: optional single sign followed by a
nonempty run of decimal digits succeeds, anything else raises `ValueError`
(`none`).  Surrounding whitespace and `_` separators, which the source never
produces, are outside the modelled universe.  In particular every `isdigit`
string that contains a non-decimal digit character (such as `'²'`) is rejected,
exactly as CPython's `int()` rejects it. -/
def pyInt (s : PyStr) : Option Int :=
  match s with
  | '-' :: t => if t ≠ [] ∧ t.all pyCharIsDecimal then some (-(digitsToNat t : Int)) else none
  | '+' :: t => if t ≠ [] ∧ t.all pyCharIsDecimal then some ((digitsToNat t : Int)) else none
  | _ => if s ≠ [] ∧ s.all pyCharIsDecimal then some ((digitsToNat s : Int)) else none

/-- Model of CPython `float(x)` restricted to unsigned decimal literals
(digits with at most one dot), which is the only shape `_maybe_to_number`
could ever feed it; the value is kept exactly, as a rational. -/
def pyFloat (s : PyStr) : Option Rat :=
  let ip := s.takeWhile (fun c => c != '.')
  let rest := s.dropWhile (fun c => c != '.')
  match rest with
  | '.' :: fp =>
    if ip.all pyCharIsDecimal ∧ fp.all pyCharIsDecimal ∧ (ip ≠ [] ∨ fp ≠ []) then
      some ((digitsToNat ip : Rat) + (digitsToNat fp : Rat) / ((10 : Rat) ^ fp.length))
    else none
  | _ => if s ≠ [] ∧ s.all pyCharIsDecimal then some ((digitsToNat s : Rat)) else none

/-- Values `read` can produce for one CSV field: the Python `str`, `int` and
`float` results of `_maybe_to_number` (the float carried exactly). -/
inductive PyVal where
  | str : PyStr → PyVal
  | int : Int → PyVal
  | float : Rat → PyVal
deriving DecidableEq, Repr

/-- Embedding of `PagePaths._maybe_to_number`:
`(float(x) if '.' in x else int(x)) if x.isdigit() else x`.
`Except.error` is a raised `ValueError`. -/
def maybe_to_number (x : PyStr) : Except Unit PyVal :=
  if pyIsDigit x then
    if x.contains '.' then
      match pyFloat x with
      | some q => .ok (.float q)
      | none => .error ()
    else
      match pyInt x with
      | some n => .ok (.int n)
      | none => .error ()
  else .ok (.str x)

/-- Model of Python `path.startswith('/')`. -/
def startsSlash (l : PyStr) : Bool :=
  match l with
  | c :: _ => c == '/'
  | [] => false

/-- Model of Python `path.endswith('/')`. -/
def endsSlash (l : PyStr) : Bool :=
  match l.getLast? with
  | some c => c == '/'
  | none => false

/-- Embedding of `PagePaths.filter_path`: reject strings starting with
`http` or `/http`, cut everything from the first `'?'`, then append a `'/'`
when the string does not start with `'/'`, and append a `'/'` when it does
not end with `'/'`.  `none` is Python's `None` (invalid path). -/
def filter_path (path : PyStr) : Option PyStr :=
  if ("/http".toList.isPrefixOf path || "http".toList.isPrefixOf path) then none
  else
    let p1 := path.takeWhile (fun c => c != '?')
    let p2 := if startsSlash p1 then p1 else p1 ++ ['/']
    let p3 := if endsSlash p2 then p2 else p2 ++ ['/']
    some p3

/-- One row of an Analytics report: the `dimensions` list and, for each
entry of the `metrics` list, its `values` list of strings. -/
structure GARow where
  dimensions : List PyStr
  metrics : List (List PyStr)
deriving DecidableEq, Repr

/-- One report of an Analytics response: its rows and the optional
`nextPageToken` continuation cursor. -/
structure GAReport where
  rows : List GARow
  nextPageToken : Option PyStr
deriving DecidableEq, Repr

/-- An Analytics Reporting API response: a list of reports. -/
structure GAResponse where
  reports : List GAReport
deriving DecidableEq, Repr

/-- One connection as appended by `filter_batch`:
`[prev_index, current_index, count]`. -/
abbrev ConnT := Nat × Nat × Int

/-- The accumulator pair `(paths, connections)`. -/
abbrev St := List PyStr × List ConnT

/-- Embedding of Python `paths.index(p)` guarded by `p in paths`: the index
used when the path is already present, the length (position of the appended
element) otherwise. -/
def indexPath (paths : List PyStr) (p : PyStr) : Nat :=
  if p ∈ paths then paths.indexOf p else paths.length

/-- Embedding of the conditional append `if p in paths ... else paths.append(p)`. -/
def insertPath (paths : List PyStr) (p : PyStr) : List PyStr :=
  if p ∈ paths then paths else paths ++ [p]

/-- Previous-page dimension of a row (`dimensions[1]`, guarded by the length
check in `filter_batch`). -/
def dim1 (row : GARow) : PyStr := (row.dimensions[1]?).getD []

/-- Current-page dimension of a row (`dimensions[2]`). -/
def dim2 (row : GARow) : PyStr := (row.dimensions[2]?).getD []

/-- Raw string `metrics[0]['values'][0]` of a row; `none` when either lookup
would raise an `IndexError` in Python. -/
def metricRaw (row : GARow) : Option PyStr :=
  (row.metrics[0]?).bind (fun m => m[0]?)

/-- First metric value of a row coerced by `int()`; `none` when the lookup
or the conversion would raise. -/
def metricInt (row : GARow) : Option Int := (metricRaw row).bind pyInt

/-- Embedding of one iteration of the row loop in `PagePaths.filter_batch`.
`Except.error` is an uncaught Python exception; its payload is the
`(paths, connections)` state at the moment of the raise, because the row
loop mutates the `paths` list before it touches `metrics[0]['values'][0]`. -/
def processRow (st : St) (row : GARow) : Except St St :=
  if row.dimensions.length < 3 then .ok st
  else
    if filter_path (dim1 row) = none ∨ filter_path (dim2 row) = none ∨
        filter_path (dim1 row) = filter_path (dim2 row) then .ok st
    else
      let pv := (filter_path (dim1 row)).getD []
      let cv := (filter_path (dim2 row)).getD []
      let prev_index := indexPath st.1 pv
      let paths1 := insertPath st.1 pv
      let current_index := indexPath paths1 cv
      let paths2 := insertPath paths1 cv
      match metricRaw row with
      | none => .error (paths2, st.2)
      | some mstr =>
        match pyInt mstr with
        | none => .error (paths2, st.2)
        | some n => .ok (paths2, st.2 ++ [(prev_index, current_index, n)])

/-- Sequential processing of a list of rows, the first uncaught exception
aborting the run with the state it left behind. -/
def filter_rows (rows : List GARow) (st : St) : Except St St :=
  match rows with
  | [] => .ok st
  | r :: rs =>
    match processRow st r with
    | .ok st' => filter_rows rs st'
    | .error e => .error e

/-- All rows of a response in iteration order (outer loop over reports,
inner loop over each report's rows). -/
def respRows (resp : GAResponse) : List GARow :=
  (resp.reports.map GAReport.rows).flatten

/-- Embedding of `PagePaths.filter_batch` applied to explicitly passed
accumulators. -/
def filter_batch (resp : GAResponse) (st : St) : Except St St :=
  filter_rows (respRows resp) st

/-- State a run leaves behind, whether it returned or raised. -/
def endSt : Except St St → St
  | .ok s => s
  | .error s => s

/-- The two default-argument list objects of `filter_batch`
(`paths=[], connections=[]`).  CPython allocates them once, at function
definition time, and every call that omits the corresponding argument binds
the same object, so the appends performed by such a call persist into later
calls. -/
structure FBDefaults where
  paths : List PyStr
  conns : List ConnT
deriving DecidableEq, Repr

/-- A call of `filter_batch` with each accumulator either passed explicitly
(`some`) or defaulted (`none`).  The first component is what the call
returns (or raises); the second is the content of the shared default
objects after the call: a defaulted accumulator is mutated in place, an
explicitly passed one leaves the defaults untouched. -/
def filter_batchCall (st : FBDefaults) (resp : GAResponse)
    (pArg : Option (List PyStr)) (cArg : Option (List ConnT)) :
    Except St St × FBDefaults :=
  let res := filter_batch resp (pArg.getD st.paths, cArg.getD st.conns)
  let fin := endSt res
  (res, ⟨if pArg.isNone then fin.1 else st.paths,
         if cArg.isNone then fin.2 else st.conns⟩)

/-- Continuation cursor of a response as `PagePaths.get` reads it:
`len(reports) and 'nextPageToken' in reports[0]`. -/
def nextTok (resp : GAResponse) : Option PyStr :=
  match resp.reports with
  | [] => none
  | r :: _ => r.nextPageToken

/-- Embedding of the `while more_pages` loop of `PagePaths.get`.  `fetch`
abstracts `get_batch` (the cursor is passed through `str(...)`, the
identity on the token strings the server returns).  The result pairs the
list of cursors issued, in order, with the final (or raising) accumulator
state; each fetched page is folded into the state by `filter_batch` before
the next fetch happens.  `fuel` bounds the number of iterations so the
function is total; every theorem below supplies enough fuel. -/
def getLoop (fetch : PyStr → GAResponse) : Nat → PyStr → St → List PyStr × Except St St
  | 0, _, st => ([], .ok st)
  | fuel + 1, cursor, st =>
    let resp := fetch cursor
    match nextTok resp with
    | none => ([cursor], filter_batch resp st)
    | some t =>
      match filter_batch resp st with
      | .error e => ([cursor], .error e)
      | .ok st' =>
        let r := getLoop fetch fuel t st'
        (cursor :: r.1, r.2)

/-- Embedding of `PagePaths.get`: fresh accumulators, first cursor
`str(0) = "0"`. -/
def get (fetch : PyStr → GAResponse) (fuel : Nat) : List PyStr × Except St St :=
  getLoop fetch fuel ['0'] ([], [])

/-- Fields that force quoting under `csv.QUOTE_MINIMAL` with delimiter `','`,
quotechar `'"'` and the default `'\r\n'` line terminator. -/
def needsQuote (f : PyStr) : Bool :=
  f.any (fun c => c == ',' || c == '"' || c == '\r' || c == '\n')

/-- Quote doubling inside a quoted CSV field. -/
def escQuote : PyStr → PyStr
  | [] => []
  | c :: t => if c = '"' then '"' :: '"' :: escQuote t else c :: escQuote t

/-- One field as `csv.writer` emits it under `QUOTE_MINIMAL`. -/
def escapeField (f : PyStr) : PyStr :=
  if needsQuote f then '"' :: (escQuote f ++ ['"']) else f

/-- One record as `csv.writer.writerow` emits it (without the terminator). -/
def encodeRecord : List PyStr → PyStr
  | [] => []
  | [f] => escapeField f
  | f :: rest => escapeField f ++ ',' :: encodeRecord rest

/-- A whole file as `PagePaths.write` produces it: each record followed by
the `'\r\n'` terminator. -/
def encodeFile : List (List PyStr) → PyStr
  | [] => []
  | r :: rs => encodeRecord r ++ '\r' :: '\n' :: encodeFile rs

/-- Parser mode of the `csv.reader` state machine. -/
inductive CSVMode where
  | start | fieldStart | unquoted | quoted | afterQuote | seenCR
deriving DecidableEq, Repr

/-- Parser state of the `csv.reader` state machine: finished records,
finished fields of the current record, characters of the current field,
and the mode. -/
structure CSVSt where
  recs : List (List PyStr)
  fields : List PyStr
  cur : PyStr
  mode : CSVMode
deriving DecidableEq, Repr

/-- One character step of the `csv.reader` state machine (delimiter `','`,
quotechar `'"'`, doubled quotes, `'\r'`/`'\n'`/`'\r\n'` record breaks, a
blank line read back as the empty record, exactly as Python's reader does). -/
def csvStep (s : CSVSt) (c : Char) : CSVSt :=
  match s.mode with
  | .start =>
    if c = ',' then ⟨s.recs, [[]], [], .fieldStart⟩
    else if c = '"' then ⟨s.recs, s.fields, [], .quoted⟩
    else if c = '\r' then ⟨s.recs ++ [[]], [], [], .seenCR⟩
    else if c = '\n' then ⟨s.recs ++ [[]], [], [], .start⟩
    else ⟨s.recs, s.fields, [c], .unquoted⟩
  | .fieldStart =>
    if c = ',' then ⟨s.recs, s.fields ++ [[]], [], .fieldStart⟩
    else if c = '"' then ⟨s.recs, s.fields, [], .quoted⟩
    else if c = '\r' then ⟨s.recs ++ [s.fields ++ [[]]], [], [], .seenCR⟩
    else if c = '\n' then ⟨s.recs ++ [s.fields ++ [[]]], [], [], .start⟩
    else ⟨s.recs, s.fields, [c], .unquoted⟩
  | .unquoted =>
    if c = ',' then ⟨s.recs, s.fields ++ [s.cur], [], .fieldStart⟩
    else if c = '\r' then ⟨s.recs ++ [s.fields ++ [s.cur]], [], [], .seenCR⟩
    else if c = '\n' then ⟨s.recs ++ [s.fields ++ [s.cur]], [], [], .start⟩
    else ⟨s.recs, s.fields, s.cur ++ [c], .unquoted⟩
  | .quoted =>
    if c = '"' then ⟨s.recs, s.fields, s.cur, .afterQuote⟩
    else ⟨s.recs, s.fields, s.cur ++ [c], .quoted⟩
  | .afterQuote =>
    if c = '"' then ⟨s.recs, s.fields, s.cur ++ ['"'], .quoted⟩
    else if c = ',' then ⟨s.recs, s.fields ++ [s.cur], [], .fieldStart⟩
    else if c = '\r' then ⟨s.recs ++ [s.fields ++ [s.cur]], [], [], .seenCR⟩
    else if c = '\n' then ⟨s.recs ++ [s.fields ++ [s.cur]], [], [], .start⟩
    else ⟨s.recs, s.fields, s.cur ++ [c], .unquoted⟩
  | .seenCR =>
    if c = '\n' then ⟨s.recs, s.fields, s.cur, .start⟩
    else if c = ',' then ⟨s.recs, [[]], [], .fieldStart⟩
    else if c = '"' then ⟨s.recs, s.fields, [], .quoted⟩
    else if c = '\r' then ⟨s.recs ++ [[]], [], [], .seenCR⟩
    else ⟨s.recs, s.fields, [c], .unquoted⟩

/-- Flush of the parser state at end of input. -/
def csvFinish (s : CSVSt) : List (List PyStr) :=
  match s.mode with
  | .start => s.recs
  | .seenCR => s.recs
  | .fieldStart => s.recs ++ [s.fields ++ [[]]]
  | .unquoted => s.recs ++ [s.fields ++ [s.cur]]
  | .quoted => s.recs ++ [s.fields ++ [s.cur]]
  | .afterQuote => s.recs ++ [s.fields ++ [s.cur]]

/-- Records of a CSV file text, as `csv.reader` yields them. -/
def parseCSV (input : List Char) : List (List PyStr) :=
  csvFinish (input.foldl csvStep ⟨[], [], [], .start⟩)

/-- Universal-newline translation performed by Python 3 text-mode reading
(`open(file_name)` with the default `newline=None`): every `'\r\n'` pair
and every lone `'\r'` becomes `'\n'` before `csv.reader` sees the text —
including carriage returns inside quoted fields, since the translation
happens at the I/O layer, below the CSV syntax. -/
def univNewlines : List Char → List Char
  | [] => []
  | '\r' :: '\n' :: t => '\n' :: univNewlines t
  | '\r' :: t => '\n' :: univNewlines t
  | c :: t => c :: univNewlines t

/-- Embedding of `PagePaths.write` on two-dimensional data: every element is
already a list, so each is written as one record.  Text-mode writing with
`newline=None` maps `'\n'` to `os.linesep`, the identity on the POSIX
platform modelled here, so the file holds the writer's bytes verbatim. -/
def write (rows : List (List PyStr)) : PyStr := encodeFile rows

/-- Embedding of `PagePaths.write` on flat data: scalar elements are wrapped
(`[row]`) before being written. -/
def writeFlat (data : List PyStr) : PyStr := encodeFile (data.map (fun s => [s]))

/-- Error-propagating map, mirroring the read loop that coerces elements one
by one and lets the first exception escape. -/
def exceptMapList (g : α → Except Unit β) : List α → Except Unit (List β)
  | [] => .ok []
  | a :: t =>
    match g a with
    | .error e => .error e
    | .ok b =>
      match exceptMapList g t with
      | .error e => .error e
      | .ok bs => .ok (b :: bs)

/-- Embedding of `PagePaths.read` with `is_flat=False`: the file text passes
through the text-mode universal-newline translation, is parsed by
`csv.reader`, and every field of every record goes through
`_maybe_to_number`. -/
def read (file : PyStr) : Except Unit (List (List PyVal)) :=
  exceptMapList (fun r => exceptMapList maybe_to_number r) (parseCSV (univNewlines file))

/-- Embedding of `PagePaths.read` with `is_flat=True`: same translation and
parse, then `row[0]` of each record through `_maybe_to_number`; an empty
record raises `IndexError`. -/
def readFlat (file : PyStr) : Except Unit (List PyVal) :=
  exceptMapList
    (fun r =>
      match r[0]? with
      | none => Except.error ()
      | some f => maybe_to_number f)
    (parseCSV (univNewlines file))

/-- The skip condition of the row loop: fewer than three dimension values,
an invalid previous or current path, or both normalizing to the same
canonical path. -/
def rowSkipped (row : GARow) : Prop :=
  row.dimensions.length < 3 ∨ filter_path (dim1 row) = none ∨
    filter_path (dim2 row) = none ∨ filter_path (dim1 row) = filter_path (dim2 row)

instance (row : GARow) : Decidable (rowSkipped row) := by
  unfold rowSkipped; infer_instance

/-- Index-validity of the accumulated connections: every endpoint refers to
a position inside the current `paths` list. -/
def connBounds (st : St) : Prop :=
  ∀ c ∈ st.2, c.1 < st.1.length ∧ c.2.1 < st.1.length

instance (st : St) : Decidable (connBounds st) := by
  unfold connBounds; infer_instance

/-- A well-formed example row `(date, previous path, current path, count)`. -/
def exRow (pv cv m : PyStr) : GARow := ⟨[['d'], pv, cv], [[m]]⟩

/-- A row with three dimensions, two valid distinct paths and no metrics. -/
def rowNoMetrics : GARow := ⟨[['d'], "/a/".toList, "/b/".toList], []⟩

/-- A single-report response holding only `rowNoMetrics`. -/
def respNoMetrics : GAResponse := ⟨[⟨[rowNoMetrics], none⟩]⟩

/-- A row with only two dimension values. -/
def rowShort : GARow := ⟨[['d'], "/a/".toList], []⟩

/-- A single-report response holding one `/a/ → /b/` row, no cursor. -/
def respAB : GAResponse := ⟨[⟨[exRow "/a/".toList "/b/".toList ['5']], none⟩]⟩

/-- A single-report response holding one `/a/ → /c/` row, no cursor. -/
def respAC : GAResponse := ⟨[⟨[exRow "/a/".toList "/c/".toList ['2']], none⟩]⟩

/-- A report source that never returns a continuation cursor. -/
def fetchOnce : PyStr → GAResponse := fun _ => respAC

/-- A report source with two pages: cursor `"0"` answers with a
continuation token `"x"`, any other cursor with a final page. -/
def fetchTwo : PyStr → GAResponse := fun c =>
  if c = ['0'] then ⟨[⟨[exRow "/a/".toList "/b/".toList ['5']], some ['x']⟩]⟩
  else respAC

/-- The field coercion `read` actually performs on fields that do not
raise: an all-decimal-digit field becomes its integer, everything else is
returned unchanged as a string. -/
def coerceField (f : PyStr) : PyVal :=
  if pyIsDigit f then .int (digitsToNat f) else .str f

/-- Fields whose coercion cannot raise: whenever `isdigit()` holds, all
characters are decimal (no `'²'`-like characters). -/
def fieldSafe (f : PyStr) : Prop :=
  pyIsDigit f = true → f.all pyCharIsDecimal = true

instance (f : PyStr) : Decidable (fieldSafe f) := by
  unfold fieldSafe; infer_instance

/-- Helper: decidable equality for `Except` results. -/
def exceptDecEq {ε α : Type} [DecidableEq ε] [DecidableEq α] : DecidableEq (Except ε α) :=
  fun x y =>
    match x, y with
    | .ok a, .ok b =>
      match decEq a b with
      | isTrue h => isTrue (by rw [h])
      | isFalse h => isFalse (by intro hc; cases hc; exact h rfl)
    | .error a, .error b =>
      match decEq a b with
      | isTrue h => isTrue (by rw [h])
      | isFalse h => isFalse (by intro hc; cases hc; exact h rfl)
    | .ok _, .error _ => isFalse (by intro hc; cases hc)
    | .error _, .ok _ => isFalse (by intro hc; cases hc)

instance {ε α : Type} [DecidableEq ε] [DecidableEq α] : DecidableEq (Except ε α) :=
  exceptDecEq

/-- Helper: Boolean `isPrefixOf` agrees with append decomposition. -/
theorem isPrefixOf_iff_append : ∀ (w l : List Char), w.isPrefixOf l = true ↔ ∃ t, l = w ++ t := by
  intro w
  induction w with
  | nil => intro l; simp [List.isPrefixOf]
  | cons a as ih =>
    intro l
    cases l with
    | nil => simp [List.isPrefixOf]
    | cons b bs =>
      simp only [List.isPrefixOf, Bool.and_eq_true, beq_iff_eq, ih, List.cons_append,
        List.cons.injEq]
      constructor
      · rintro ⟨hab, t, ht⟩; exact ⟨t, hab.symm, ht⟩
      · rintro ⟨t, hba, ht⟩; exact ⟨hba.symm, t, ht⟩

/-- Helper: a valid `filter_path` result is the query-stripped input followed
by at most one appended slash, and it always ends in a slash. -/
theorem filter_path_decomp (p r : PyStr) (h : filter_path p = some r) :
    (∃ u, r = p.takeWhile (fun c => c != '?') ++ u ∧ (∀ c ∈ u, c = '/')) ∧
      endsSlash r = true := by
  unfold filter_path at h
  split at h
  · cases h
  · by_cases h1 : startsSlash (p.takeWhile (fun c => c != '?'))
    · by_cases h2 : endsSlash (p.takeWhile (fun c => c != '?'))
      · simp only [h1, if_true, h2] at h
        cases h
        exact ⟨⟨[], by simp, by simp⟩, h2⟩
      · simp only [h1, if_true, h2, if_false, Bool.false_eq_true, if_neg] at h
        cases h
        refine ⟨⟨['/'], rfl, by simp⟩, ?_⟩
        simp [endsSlash, List.getLast?_append]
    · have he : endsSlash (p.takeWhile (fun c => c != '?') ++ ['/']) = true := by
        simp [endsSlash, List.getLast?_append]
      simp only [h1, Bool.false_eq_true, if_neg, if_false, he, if_true] at h
      cases h
      exact ⟨⟨['/'], rfl, by simp⟩, he⟩

/-- Helper: when the stripped input has no leading slash, `filter_path`
appends the slash at the end. -/
theorem filter_path_no_lead (p r : PyStr) (h : filter_path p = some r)
    (h1 : startsSlash (p.takeWhile (fun c => c != '?')) = false) :
    r = p.takeWhile (fun c => c != '?') ++ ['/'] := by
  unfold filter_path at h
  split at h
  · cases h
  · have he : endsSlash (p.takeWhile (fun c => c != '?') ++ ['/']) = true := by
      simp [endsSlash, List.getLast?_append]
    simp only [h1, Bool.false_eq_true, if_neg, if_false, he, if_true] at h
    cases h
    rfl

/-- Helper: no `filter_path` result contains a question mark. -/
theorem filter_path_no_qmark (p r : PyStr) (h : filter_path p = some r) :
    ∀ c ∈ r, c ≠ '?' := by
  obtain ⟨⟨u, hu, hslash⟩, -⟩ := filter_path_decomp p r h
  intro c hc
  rw [hu] at hc
  rcases List.mem_append.mp hc with hc1 | hc2
  · have := List.mem_takeWhile_imp hc1
    simpa using this
  · rw [hslash c hc2]
    decide

/-- Helper: `"/http"` is no prefix of the original, hence none of the
stripped input either. -/
theorem filter_path_guard (p r : PyStr) (h : filter_path p = some r) :
    "/http".toList.isPrefixOf p = false ∧ "http".toList.isPrefixOf p = false := by
  unfold filter_path at h
  split at h
  · cases h
  · rename_i hg
    constructor
    · cases hb : "/http".toList.isPrefixOf p
      · rfl
      · exact absurd (by rw [hb]; rfl) hg
    · cases hb : "http".toList.isPrefixOf p
      · rfl
      · exact absurd (by rw [hb, Bool.or_true]) hg

/-- Helper: appending slashes to a list that `"/http"` is no prefix of
cannot create a `"/http"` prefix, since `'p' ≠ '/'`. -/
theorem http_no_pre_append (s u : List Char) (hu : ∀ c ∈ u, c = '/')
    (hs : "/http".toList.isPrefixOf s = false) :
    "/http".toList.isPrefixOf (s ++ u) = false := by
  cases hb : "/http".toList.isPrefixOf (s ++ u)
  · rfl
  · exfalso
    obtain ⟨t, ht⟩ := (isPrefixOf_iff_append _ _).mp hb
    rcases List.append_eq_append_iff.mp ht with ⟨a', ha1, ha2⟩ | ⟨c', hc1, hc2⟩
    · cases a' with
      | nil =>
        have hsfull : s = "/http".toList := by simpa using ha1.symm
        have : "/http".toList.isPrefixOf s = true :=
          (isPrefixOf_iff_append _ _).mpr ⟨[], by simp [hsfull]⟩
        rw [this] at hs; cases hs
      | cons x xs =>
        have hlast : ("/http".toList).getLast? = some 'p' := by decide
        rw [ha1, List.getLast?_append] at hlast
        have hxs : (x :: xs).getLast? = some '/' := by
          obtain ⟨ys, a, hya⟩ : ∃ ys a, x :: xs = ys ++ [a] := by
            refine ⟨(x :: xs).dropLast, (x :: xs).getLast (by simp), ?_⟩
            exact (List.dropLast_append_getLast (by simp)).symm
          have ha : a = '/' := by
            refine hu a ?_
            rw [ha2, hya]
            simp
          rw [hya, ha]
          simp
        rw [hxs] at hlast
        simp at hlast
    · have : "/http".toList.isPrefixOf s = true :=
        (isPrefixOf_iff_append _ _).mpr ⟨c', hc1⟩
      rw [this] at hs; cases hs

/-- C2 counterexample: the input `"a"` is not rejected, yet its normal form
`"a/"` does not start with `'/'` — the missing leading slash is appended at
the end instead of being inserted at the front. -/
theorem c2_startsSlash_counterexample :
    filter_path ['a'] = some ['a', '/'] ∧ startsSlash ['a', '/'] = false := by
  constructor
  · decide
  · decide

/-- C2 amended: every path `filter_path` accepts is returned ending in `'/'`
(a missing trailing slash is appended), but when the query-stripped input
lacks a leading slash the function appends a `'/'` at the end instead of
prepending one, so the result keeps the missing leading slash missing. -/
theorem c2_slash_bounds_amended (p r : PyStr) (h : filter_path p = some r) :
    endsSlash r = true ∧
      (startsSlash (p.takeWhile (fun c => c != '?')) = false →
        r = p.takeWhile (fun c => c != '?') ++ ['/']) := by
  refine ⟨(filter_path_decomp p r h).2, fun h1 => filter_path_no_lead p r h h1⟩

/-- C2 amended, witness at `p = "/x"`. -/
theorem c2_slash_bounds_amended_witness :
    endsSlash ['/', 'x', '/'] = true ∧
      (startsSlash (['/', 'x'].takeWhile (fun c => c != '?')) = false →
        ['/', 'x', '/'] = ['/', 'x'].takeWhile (fun c => c != '?') ++ ['/']) :=
  c2_slash_bounds_amended ['/', 'x'] ['/', 'x', '/'] (by decide)

/-- C5 counterexample: `"a"` is a valid input (`filter_path` accepts it),
but normalization is not idempotent on it: `normalize "a" = "a/"` while
`normalize "a/" = "a//"`. -/
theorem c5_idempotent_counterexample :
    filter_path ['a'] = some ['a', '/'] ∧
      filter_path ['a', '/'] = some ['a', '/', '/'] ∧
      some ['a', '/', '/'] ≠ some ['a', '/'] := by
  refine ⟨by decide, by decide, by decide⟩

/-- C5 amended: normalization is idempotent on every valid input whose
normal form starts with `'/'` (equivalently, on results the second pass
accepts without appending another slash); for valid inputs without a
leading slash a second normalization appends one more slash. -/
theorem c5_idempotent_amended (p r : PyStr) (h : filter_path p = some r)
    (hs : startsSlash r = true) : filter_path r = some r := by
  obtain ⟨⟨u, hu, huslash⟩, hend⟩ := filter_path_decomp p r h
  obtain ⟨hg1, hg2⟩ := filter_path_guard p r h
  have hstrip : "/http".toList.isPrefixOf (p.takeWhile (fun c => c != '?')) = false := by
    cases hb : "/http".toList.isPrefixOf (p.takeWhile (fun c => c != '?'))
    · rfl
    · exfalso
      obtain ⟨t, ht⟩ := (isPrefixOf_iff_append _ _).mp hb
      have hp : p = "/http".toList ++ (t ++ p.dropWhile (fun c => c != '?')) := by
        conv_lhs => rw [← List.takeWhile_append_dropWhile (fun c => c != '?') p]
        rw [ht, List.append_assoc]
      have : "/http".toList.isPrefixOf p = true :=
        (isPrefixOf_iff_append _ _).mpr ⟨t ++ p.dropWhile (fun c => c != '?'), hp⟩
      rw [this] at hg1; cases hg1
  have hr1 : "/http".toList.isPrefixOf r = false := by
    rw [hu]; exact http_no_pre_append _ u huslash hstrip
  have hr2 : "http".toList.isPrefixOf r = false := by
    cases r with
    | nil => simp [startsSlash] at hs
    | cons c t =>
      have hc : c = '/' := by simpa [startsSlash] using hs
      subst hc
      simp [List.isPrefixOf]
  have hself : r.takeWhile (fun c => c != '?') = r := by
    refine List.takeWhile_eq_self_iff.mpr ?_
    intro x hx
    have := filter_path_no_qmark p r h x hx
    simpa using this
  unfold filter_path
  rw [hr1, hr2]
  simp only [Bool.or_self, Bool.false_eq_true, if_neg, if_false, hself, hs, if_true, hend]

/-- C5 amended, witness at `p = "/x"` whose normal form is `"/x/"`. -/
theorem c5_idempotent_amended_witness : filter_path ['/', 'x', '/'] = some ['/', 'x', '/'] :=
  c5_idempotent_amended ['/', 'x'] ['/', 'x', '/'] (by decide) (by decide)

/-- C10 confirmed: a field of non-decimal Unicode digit characters such as
`"²"` passes the `isdigit()` test but fails `int()`, so `_maybe_to_number`
raises a `ValueError`, and reading a file that contains such a field raises
instead of returning data. -/
theorem c10_maybe_to_number_raises :
    pyIsDigit ['²'] = true ∧ pyInt ['²'] = none ∧
      maybe_to_number ['²'] = .error () ∧
      read (write [[['²']]]) = .error () := by
  refine ⟨by decide, by decide, by decide, by decide⟩

/-- C3 counterexample: two `filter_batch` calls that rely on the default
accumulator arguments interfere.  Fed the same response `respAC`, a call on
fresh defaults returns `(['/a/','/c/'], [(0,1,2)])`, but the same call made
after an earlier defaults-relying call on `respAB` returns
`(['/a/','/b/','/c/'], [(0,1,5),(0,2,2)])` — the earlier call's paths and
connections leak in and even shift the indices, so the result does not
depend on the response alone. -/
theorem c3_default_leak_counterexample :
    (filter_batchCall ⟨[], []⟩ respAC none none).1 =
      .ok ([ "/a/".toList, "/c/".toList ], [(0, 1, 2)]) ∧
    (filter_batchCall (filter_batchCall ⟨[], []⟩ respAB none none).2 respAC none none).1 =
      .ok ([ "/a/".toList, "/b/".toList, "/c/".toList ], [(0, 1, 5), (0, 2, 2)]) ∧
    (filter_batchCall (filter_batchCall ⟨[], []⟩ respAB none none).2 respAC none none).1 ≠
      (filter_batchCall ⟨[], []⟩ respAC none none).1 := by
  refine ⟨by decide, by decide, by decide⟩

/-- C3 amended: only calls that pass both accumulators explicitly are free
of interference — their result is a function of the response and the passed
accumulators alone, independent of the shared default-argument state, and
they leave that shared state untouched.  Calls that rely on the defaults
share one accumulator pair across all calls of the process, so earlier
defaults-relying calls leak into later ones (see the counterexample);
`get` itself is unaffected because it passes fresh explicit lists. -/
theorem c3_explicit_args_no_leak (st st' : FBDefaults) (resp : GAResponse)
    (p : List PyStr) (c : List ConnT) :
    (filter_batchCall st resp (some p) (some c)).1 =
        (filter_batchCall st' resp (some p) (some c)).1 ∧
      (filter_batchCall st resp (some p) (some c)).2 = st := by
  exact ⟨rfl, rfl⟩

/-- C6 confirmed: a malformed row — fewer than three dimension values, an
invalid previous or current path, or a self-loop — is skipped silently:
`processRow` neither raises nor changes `paths` or `connections`. -/
theorem c6_malformed_skip (row : GARow) (st : St) (h : rowSkipped row) :
    processRow st row = .ok st := by
  unfold processRow
  by_cases hl : row.dimensions.length < 3
  · rw [if_pos hl]
  · rw [if_neg hl]
    have hcond : filter_path (dim1 row) = none ∨ filter_path (dim2 row) = none ∨
        filter_path (dim1 row) = filter_path (dim2 row) := by
      rcases h with h | h
      · exact absurd h hl
      · exact h
    rw [if_pos hcond]

/-- C6 witness: the two-dimension row is skipped without mutation. -/
theorem c6_malformed_skip_witness :
    rowSkipped rowShort ∧ processRow ([], []) rowShort = .ok ([], []) :=
  ⟨by decide, c6_malformed_skip rowShort ([], []) (by decide)⟩

/-- Helper: `insertPath` only ever appends. -/
theorem insertPath_exists (paths : List PyStr) (p : PyStr) :
    ∃ t, insertPath paths p = paths ++ t := by
  unfold insertPath
  split
  · exact ⟨[], by simp⟩
  · exact ⟨[p], rfl⟩

/-- Helper: `insertPath` never shortens the list. -/
theorem insertPath_length_le (paths : List PyStr) (p : PyStr) :
    paths.length ≤ (insertPath paths p).length := by
  obtain ⟨t, ht⟩ := insertPath_exists paths p
  rw [ht]
  simp

/-- Helper: `insertPath` preserves distinctness of the paths list. -/
theorem insertPath_nodup (paths : List PyStr) (p : PyStr) (h : paths.Nodup) :
    (insertPath paths p).Nodup := by
  unfold insertPath
  split
  · exact h
  · rename_i hnm
    rw [List.nodup_append]
    exact ⟨h, List.nodup_singleton p, by simpa using hnm⟩

/-- Helper: `List.indexOf` of a member is a valid position. -/
theorem indexOf_lt_of_mem (p : PyStr) (l : List PyStr) (h : p ∈ l) :
    l.indexOf p < l.length := by
  induction l with
  | nil => cases h
  | cons a t ih =>
    rw [List.indexOf_cons]
    by_cases hpa : (a == p) = true
    · simp [hpa]
    · have hb : (a == p) = false := by simpa using hpa
      rw [hb]
      have hmem : p ∈ t := by
        rcases List.mem_cons.mp h with h1 | h1
        · exact absurd (by simp [h1]) hpa
        · exact h1
      simpa using Nat.succ_lt_succ (ih hmem)

/-- Helper: the index chosen for a path is a valid position of the list
after the conditional append. -/
theorem indexPath_lt (paths : List PyStr) (p : PyStr) :
    indexPath paths p < (insertPath paths p).length := by
  unfold indexPath insertPath
  split
  · rename_i hm
    exact indexOf_lt_of_mem p paths hm
  · simp

/-- Helper: a skipped row leaves the state untouched and raises nothing. -/
theorem processRow_skip (st : St) (row : GARow) (h : rowSkipped row) :
    processRow st row = .ok st := by
  unfold processRow
  by_cases hl : row.dimensions.length < 3
  · rw [if_pos hl]
  · rw [if_neg hl]
    have hcond : filter_path (dim1 row) = none ∨ filter_path (dim2 row) = none ∨
        filter_path (dim1 row) = filter_path (dim2 row) := by
      rcases h with h | h
      · exact absurd h hl
      · exact h
    rw [if_pos hcond]

/-- Helper: an accepted row with a convertible metric appends the two paths
as needed and exactly one connection triple. -/
theorem processRow_accept (st : St) (row : GARow) (n : Int)
    (hsk : ¬ rowSkipped row) (hm : metricInt row = some n) :
    processRow st row = .ok
      (insertPath (insertPath st.1 ((filter_path (dim1 row)).getD []))
          ((filter_path (dim2 row)).getD []),
        st.2 ++ [(indexPath st.1 ((filter_path (dim1 row)).getD []),
          indexPath (insertPath st.1 ((filter_path (dim1 row)).getD []))
            ((filter_path (dim2 row)).getD []), n)]) := by
  have hl : ¬ row.dimensions.length < 3 := fun h => hsk (Or.inl h)
  have hc : ¬ (filter_path (dim1 row) = none ∨ filter_path (dim2 row) = none ∨
      filter_path (dim1 row) = filter_path (dim2 row)) := fun h => hsk (Or.inr h)
  obtain ⟨ms, hms⟩ : ∃ ms, metricRaw row = some ms := by
    cases hmr : metricRaw row
    · rw [metricInt, hmr] at hm; cases hm
    · exact ⟨_, rfl⟩
  have hpy : pyInt ms = some n := by
    rw [metricInt, hms] at hm
    simpa using hm
  unfold processRow
  rw [if_neg hl, if_neg hc]
  simp only [hms, hpy]

/-- Helper: an accepted row whose metric is missing or unconvertible raises
after the paths have already been extended, leaving the appended paths in
the state and the connections untouched. -/
theorem processRow_raise (st : St) (row : GARow)
    (hsk : ¬ rowSkipped row) (hm : metricInt row = none) :
    processRow st row = .error
      (insertPath (insertPath st.1 ((filter_path (dim1 row)).getD []))
          ((filter_path (dim2 row)).getD []), st.2) := by
  have hl : ¬ row.dimensions.length < 3 := fun h => hsk (Or.inl h)
  have hc : ¬ (filter_path (dim1 row) = none ∨ filter_path (dim2 row) = none ∨
      filter_path (dim1 row) = filter_path (dim2 row)) := fun h => hsk (Or.inr h)
  unfold processRow
  rw [if_neg hl, if_neg hc]
  cases hmr : metricRaw row with
  | none => simp only [hmr]
  | some ms =>
    have hpy : pyInt ms = none := by
      rw [metricInt, hmr] at hm
      simpa using hm
    simp only [hmr, hpy]

/-- Helper: whether a row is skipped, accepted or raising, the paths list is
only ever extended. -/
theorem processRow_paths_extend (st : St) (row : GARow) :
    ∃ t, (endSt (processRow st row)).1 = st.1 ++ t := by
  by_cases hsk : rowSkipped row
  · rw [processRow_skip st row hsk]
    exact ⟨[], by simp [endSt]⟩
  · obtain ⟨t1, ht1⟩ := insertPath_exists st.1 ((filter_path (dim1 row)).getD [])
    obtain ⟨t2, ht2⟩ :=
      insertPath_exists (insertPath st.1 ((filter_path (dim1 row)).getD []))
        ((filter_path (dim2 row)).getD [])
    cases hm : metricInt row with
    | none =>
      rw [processRow_raise st row hsk hm]
      refine ⟨t1 ++ t2, ?_⟩
      show insertPath (insertPath st.1 ((filter_path (dim1 row)).getD []))
          ((filter_path (dim2 row)).getD []) = st.1 ++ (t1 ++ t2)
      rw [ht2, ht1, List.append_assoc]
    | some n =>
      rw [processRow_accept st row n hsk hm]
      refine ⟨t1 ++ t2, ?_⟩
      show insertPath (insertPath st.1 ((filter_path (dim1 row)).getD []))
          ((filter_path (dim2 row)).getD []) = st.1 ++ (t1 ++ t2)
      rw [ht2, ht1, List.append_assoc]

/-- Helper: one row preserves distinctness of the paths list. -/
theorem processRow_nodup (st : St) (row : GARow) (h : st.1.Nodup) :
    (endSt (processRow st row)).1.Nodup := by
  by_cases hsk : rowSkipped row
  · rw [processRow_skip st row hsk]
    exact h
  · have h2 := insertPath_nodup (insertPath st.1 ((filter_path (dim1 row)).getD []))
      ((filter_path (dim2 row)).getD [])
      (insertPath_nodup st.1 ((filter_path (dim1 row)).getD []) h)
    cases hm : metricInt row with
    | none => rw [processRow_raise st row hsk hm]; exact h2
    | some n => rw [processRow_accept st row n hsk hm]; exact h2

/-- Helper: one row preserves index-validity of the connections. -/
theorem processRow_bounds (st : St) (row : GARow) (h : connBounds st) :
    connBounds (endSt (processRow st row)) := by
  by_cases hsk : rowSkipped row
  · rw [processRow_skip st row hsk]
    exact h
  · have hlen1 := insertPath_length_le st.1 ((filter_path (dim1 row)).getD [])
    have hlen2 := insertPath_length_le (insertPath st.1 ((filter_path (dim1 row)).getD []))
      ((filter_path (dim2 row)).getD [])
    have hold : ∀ c ∈ st.2,
        c.1 < (insertPath (insertPath st.1 ((filter_path (dim1 row)).getD []))
            ((filter_path (dim2 row)).getD [])).length ∧
        c.2.1 < (insertPath (insertPath st.1 ((filter_path (dim1 row)).getD []))
            ((filter_path (dim2 row)).getD [])).length := by
      intro c hc
      obtain ⟨hc1, hc2⟩ := h c hc
      exact ⟨lt_of_lt_of_le hc1 (le_trans hlen1 hlen2),
        lt_of_lt_of_le hc2 (le_trans hlen1 hlen2)⟩
    cases hm : metricInt row with
    | none =>
      rw [processRow_raise st row hsk hm]
      intro c hc
      exact hold c hc
    | some n =>
      rw [processRow_accept st row n hsk hm]
      intro c hc
      rcases List.mem_append.mp hc with hc | hc
      · exact hold c hc
      · have hceq : c = (indexPath st.1 ((filter_path (dim1 row)).getD []),
            indexPath (insertPath st.1 ((filter_path (dim1 row)).getD []))
              ((filter_path (dim2 row)).getD []), n) := by simpa using hc
        subst hceq
        refine ⟨lt_of_lt_of_le (indexPath_lt _ _) hlen2, ?_⟩
        exact indexPath_lt _ _

/-- Helper: over a whole row sequence the paths list is only ever extended,
whether the run returns or raises. -/
theorem filter_rows_paths_extend (rows : List GARow) (st : St) :
    ∃ t, (endSt (filter_rows rows st)).1 = st.1 ++ t := by
  induction rows generalizing st with
  | nil => exact ⟨[], by simp [filter_rows, endSt]⟩
  | cons r rs ih =>
    unfold filter_rows
    cases hp : processRow st r with
    | ok st' =>
      obtain ⟨t1, ht1⟩ := processRow_paths_extend st r
      rw [hp] at ht1
      obtain ⟨t2, ht2⟩ := ih st'
      refine ⟨t1 ++ t2, ?_⟩
      rw [ht2]
      have h1 : st'.1 = st.1 ++ t1 := ht1
      rw [h1, List.append_assoc]
    | error e =>
      obtain ⟨t1, ht1⟩ := processRow_paths_extend st r
      rw [hp] at ht1
      exact ⟨t1, ht1⟩

/-- Helper: a whole row sequence preserves distinctness of the paths list. -/
theorem filter_rows_nodup (rows : List GARow) (st : St) (h : st.1.Nodup) :
    (endSt (filter_rows rows st)).1.Nodup := by
  induction rows generalizing st with
  | nil => simpa [filter_rows, endSt] using h
  | cons r rs ih =>
    unfold filter_rows
    have h1 := processRow_nodup st r h
    cases hp : processRow st r with
    | ok st' =>
      rw [hp] at h1
      exact ih st' h1
    | error e =>
      rw [hp] at h1
      exact h1

/-- Helper: a whole row sequence preserves index-validity of connections. -/
theorem filter_rows_bounds (rows : List GARow) (st : St) (h : connBounds st) :
    connBounds (endSt (filter_rows rows st)) := by
  induction rows generalizing st with
  | nil => simpa [filter_rows, endSt] using h
  | cons r rs ih =>
    unfold filter_rows
    have h1 := processRow_bounds st r h
    cases hp : processRow st r with
    | ok st' =>
      rw [hp] at h1
      exact ih st' h1
    | error e =>
      rw [hp] at h1
      exact h1

/-- Helper: a run that returns normally appends exactly one connection per
non-skipped row. -/
theorem filter_rows_count (rows : List GARow) (st st' : St)
    (h : filter_rows rows st = .ok st') :
    st'.2.length = st.2.length + rows.countP (fun r => decide (¬ rowSkipped r)) := by
  induction rows generalizing st with
  | nil =>
    unfold filter_rows at h
    cases h
    simp
  | cons r rs ih =>
    unfold filter_rows at h
    by_cases hsk : rowSkipped r
    · rw [processRow_skip st r hsk] at h
      rw [List.countP_cons_of_neg _ _ (by simp [hsk])]
      exact ih st h
    · cases hm : metricInt r with
      | none =>
        rw [processRow_raise st r hsk hm] at h
        cases h
      | some n =>
        rw [processRow_accept st r n hsk hm] at h
        have hrec := ih _ h
        rw [List.countP_cons_of_pos _ _ (by simp [hsk])]
        simp only [List.length_append, List.length_cons, List.length_nil] at hrec
        omega

/-- C4 confirmed: indexing is stable and dense.  Over any ingested row
sequence (1) the paths list is only ever extended — existing entries are
never removed or reordered; (2) distinctness of paths is preserved, so each
distinct canonical path holds exactly one position, assigned in first-seen
order; (3) re-ingesting an already-seen canonical path appends nothing and
reuses the existing `index` position; (4) every connection endpoint is a
valid position of the paths list, so indices are dense zero-based positions
with no gaps; and (5) ingesting `(/a/,/b/,5)` then `(/a/,/c/,2)` yields
`paths = [/a/,/b/,/c/]` and `connections = [[0,1,5],[0,2,2]]`. -/
theorem c4_index_assignment_stable :
    (∀ (st : St) (rows : List GARow), ∃ t, (endSt (filter_rows rows st)).1 = st.1 ++ t) ∧
      (∀ (st : St) (rows : List GARow), st.1.Nodup → (endSt (filter_rows rows st)).1.Nodup) ∧
      (∀ (paths : List PyStr) (p : PyStr), p ∈ paths →
        insertPath paths p = paths ∧ indexPath paths p = paths.indexOf p) ∧
      (∀ (st : St) (rows : List GARow), connBounds st →
        connBounds (endSt (filter_rows rows st))) ∧
      filter_rows [exRow "/a/".toList "/b/".toList ['5'], exRow "/a/".toList "/c/".toList ['2']]
          ([], []) =
        .ok ([ "/a/".toList, "/b/".toList, "/c/".toList ], [(0, 1, 5), (0, 2, 2)]) := by
  refine ⟨fun st rows => filter_rows_paths_extend rows st,
    fun st rows h => filter_rows_nodup rows st h,
    fun paths p h => ⟨by simp [insertPath, h], by simp [indexPath, h]⟩,
    fun st rows h => filter_rows_bounds rows st h,
    by decide⟩

/-- C4 witness: the hypothesis-bearing components instantiated on a
one-path accumulator holding one connection. -/
theorem c4_index_assignment_stable_witness :
    ((["/a/".toList] : List PyStr).Nodup ∧
      (endSt (filter_rows [exRow "/a/".toList "/c/".toList ['2']]
        ([ "/a/".toList ], [((0 : Nat), (0 : Nat), (1 : Int))]))).1.Nodup) ∧
    (connBounds ([ "/a/".toList ], [((0 : Nat), (0 : Nat), (1 : Int))]) ∧
      connBounds (endSt (filter_rows [exRow "/a/".toList "/c/".toList ['2']]
        ([ "/a/".toList ], [((0 : Nat), (0 : Nat), (1 : Int))])))) ∧
    ("/a/".toList ∈ [ "/a/".toList ] ∧
      insertPath [ "/a/".toList ] "/a/".toList = [ "/a/".toList ] ∧
      indexPath [ "/a/".toList ] "/a/".toList = [ "/a/".toList ].indexOf "/a/".toList) :=
  ⟨⟨by decide,
    c4_index_assignment_stable.2.1 ([ "/a/".toList ], [((0 : Nat), (0 : Nat), (1 : Int))])
      [exRow "/a/".toList "/c/".toList ['2']] (by decide)⟩,
   ⟨by decide,
    c4_index_assignment_stable.2.2.2.1 ([ "/a/".toList ], [((0 : Nat), (0 : Nat), (1 : Int))])
      [exRow "/a/".toList "/c/".toList ['2']] (by decide)⟩,
   by decide,
   (c4_index_assignment_stable.2.2.1 [ "/a/".toList ] "/a/".toList (by decide)).1,
   (c4_index_assignment_stable.2.2.1 [ "/a/".toList ] "/a/".toList (by decide)).2⟩

/-- C7 confirmed: connections are never merged or summed.  Every accepted
row (one that is not skipped and whose metric converts) appends exactly one
connection triple `(prevIndex, currentIndex, count)` with the count equal
to the first metric's first value coerced by `int()`; over a run that
returns, the number of connections grows by exactly the number of
non-skipped rows, duplicates included. -/
theorem c7_one_connection_per_row :
    (∀ (st : St) (row : GARow) (n : Int), ¬ rowSkipped row → metricInt row = some n →
      ∃ paths' i j, processRow st row = .ok (paths', st.2 ++ [(i, j, n)])) ∧
      (∀ (rows : List GARow) (st st' : St), filter_rows rows st = .ok st' →
        st'.2.length = st.2.length + rows.countP (fun r => decide (¬ rowSkipped r))) := by
  refine ⟨fun st row n hsk hm => ⟨_, _, _, processRow_accept st row n hsk hm⟩,
    fun rows st st' h => filter_rows_count rows st st' h⟩

/-- C7 witness: both components instantiated on concrete rows, including a
duplicate-endpoint pair that yields two separate connections. -/
theorem c7_one_connection_per_row_witness :
    (∃ paths' i j, processRow ([], []) (exRow "/a/".toList "/b/".toList ['5']) =
        .ok (paths', ([] : List ConnT) ++ [(i, j, (5 : Int))])) ∧
    (([((0 : Nat), (1 : Nat), (5 : Int)), (0, 1, 7)] : List ConnT).length =
        ([] : List ConnT).length +
          [exRow "/a/".toList "/b/".toList ['5'],
            exRow "/a/".toList "/b/".toList ['7']].countP
            (fun r => decide (¬ rowSkipped r))) :=
  ⟨c7_one_connection_per_row.1 ([], []) (exRow "/a/".toList "/b/".toList ['5']) 5
      (by decide) (by decide),
   c7_one_connection_per_row.2
      [exRow "/a/".toList "/b/".toList ['5'], exRow "/a/".toList "/b/".toList ['7']]
      ([], [])
      ([ "/a/".toList, "/b/".toList ], [(0, 1, 5), (0, 1, 7)]) (by decide)⟩

/-- C9 confirmed: a row with three dimensions and two valid, distinct
canonical paths but no usable metric makes the row loop raise an uncaught
exception instead of skipping; at the raise the previous/current paths have
already been appended, so a failing call has already mutated `paths`
(concretely: from `[]` to `[/a/,/b/]` on `rowNoMetrics`, both per row and
through `filter_batch`). -/
theorem c9_missing_metric_raises :
    (∀ (st : St) (row : GARow), ¬ rowSkipped row → metricRaw row = none →
      processRow st row = .error
        (insertPath (insertPath st.1 ((filter_path (dim1 row)).getD []))
            ((filter_path (dim2 row)).getD []), st.2)) ∧
      processRow ([], []) rowNoMetrics = .error ([ "/a/".toList, "/b/".toList ], []) ∧
      filter_batch respNoMetrics ([], []) = .error ([ "/a/".toList, "/b/".toList ], []) := by
  refine ⟨?_, by decide, by decide⟩
  intro st row hsk hm
  exact processRow_raise st row hsk (by simp [metricInt, hm])

/-- C9 witness: the general component instantiated on a nonempty
accumulator, exhibiting the mutation left behind by the raising call. -/
theorem c9_missing_metric_raises_witness :
    processRow ([ "/z/".toList ], []) rowNoMetrics =
      .error ([ "/z/".toList, "/a/".toList, "/b/".toList ], []) := by
  have h := c9_missing_metric_raises.1 ([ "/z/".toList ], []) rowNoMetrics
    (by decide) (by decide)
  exact h.trans (by decide)

/-- C8 confirmed: pagination (1) issues its first fetch with cursor `"0"`;
(2) ends after the current fetch whenever the response's first report
carries no continuation cursor, in particular (3) `get` performs exactly
one fetch when the very first response lacks the cursor; and (4) when the
first report carries a cursor `t` and the page's ingestion succeeds, the
loop recurses with exactly the server-returned cursor `t` and with the
state `filter_batch` produced from the current page — every page is
ingested before the next fetch is issued. -/
theorem c8_pagination_protocol :
    (∀ (fetch : PyStr → GAResponse) (fuel : Nat) (st : St),
      (getLoop fetch (fuel + 1) ['0'] st).1.head? = some ['0']) ∧
      (∀ (fetch : PyStr → GAResponse) (fuel : Nat) (c : PyStr) (st : St),
        nextTok (fetch c) = none →
        getLoop fetch (fuel + 1) c st = ([c], filter_batch (fetch c) st)) ∧
      (∀ (fetch : PyStr → GAResponse) (fuel : Nat),
        nextTok (fetch ['0']) = none →
        get fetch (fuel + 1) = ([ ['0'] ], filter_batch (fetch ['0']) ([], []))) ∧
      (∀ (fetch : PyStr → GAResponse) (fuel : Nat) (c : PyStr) (st st' : St) (t : PyStr),
        nextTok (fetch c) = some t → filter_batch (fetch c) st = .ok st' →
        getLoop fetch (fuel + 1) c st =
          (c :: (getLoop fetch fuel t st').1, (getLoop fetch fuel t st').2)) := by
  refine ⟨?_, ?_, ?_, ?_⟩
  · intro fetch fuel st
    unfold getLoop
    cases hn : nextTok (fetch ['0']) with
    | none => simp [hn]
    | some t =>
      cases hb : filter_batch (fetch ['0']) st with
      | error e => simp [hn, hb]
      | ok st' => simp [hn, hb]
  · intro fetch fuel c st hn
    unfold getLoop
    simp [hn]
  · intro fetch fuel hn
    unfold get getLoop
    simp [hn]
  · intro fetch fuel c st st' t hn hb
    conv_lhs => unfold getLoop
    simp [hn, hb]

/-- C8 witness: on a source without a cursor, `get` does exactly one fetch
with cursor `"0"`; on a two-page source, the second fetch uses the returned
token `"x"` and starts from the state the first page's ingestion built. -/
theorem c8_pagination_protocol_witness :
    nextTok (fetchOnce ['0']) = none ∧
      get fetchOnce 1 = ([ ['0'] ], filter_batch (fetchOnce ['0']) ([], [])) ∧
      nextTok (fetchTwo ['0']) = some ['x'] ∧
      getLoop fetchTwo 2 ['0'] ([], []) =
        (['0'] :: (getLoop fetchTwo 1 ['x']
            ([ "/a/".toList, "/b/".toList ], [(0, 1, 5)])).1,
          (getLoop fetchTwo 1 ['x']
            ([ "/a/".toList, "/b/".toList ], [(0, 1, 5)])).2) :=
  ⟨by decide,
   c8_pagination_protocol.2.2.1 fetchOnce 0 (by decide),
   by decide,
   c8_pagination_protocol.2.2.2 fetchTwo 1 ['0'] ([], [])
     ([ "/a/".toList, "/b/".toList ], [(0, 1, 5)]) ['x'] (by decide) (by decide)⟩

/-- Helper: characters of an unquoted-safe field. -/
theorem safe_of_not_needsQuote (f : PyStr) (h : needsQuote f = false) :
    ∀ c ∈ f, c ≠ ',' ∧ c ≠ '"' ∧ c ≠ '\r' ∧ c ≠ '\n' := by
  intro c hc
  have hify : (c == ',' || c == '"' || c == '\r' || c == '\n') = true → False := by
    intro hcp
    have hq : needsQuote f = true := by
      unfold needsQuote
      exact List.any_eq_true.mpr ⟨c, hc, hcp⟩
    rw [hq] at h
    cases h
  refine ⟨?_, ?_, ?_, ?_⟩ <;> intro he <;> exact hify (by simp [he])

/-- Helper: concrete parser transitions used by the round-trip proof. -/
theorem stepFS_comma (recs : List (List PyStr)) (fields : List PyStr) :
    csvStep ⟨recs, fields, [], .fieldStart⟩ ',' = ⟨recs, fields ++ [[]], [], .fieldStart⟩ := by
  simp [csvStep]

/-- Helper: newline at field start ends the record. -/
theorem stepFS_nl (recs : List (List PyStr)) (fields : List PyStr) :
    csvStep ⟨recs, fields, [], .fieldStart⟩ '\n' = ⟨recs ++ [fields ++ [[]]], [], [], .start⟩ := by
  simp [csvStep]

/-- Helper: delimiter ends an unquoted field. -/
theorem stepUnq_comma (recs : List (List PyStr)) (fields : List PyStr) (cur : PyStr) :
    csvStep ⟨recs, fields, cur, .unquoted⟩ ',' = ⟨recs, fields ++ [cur], [], .fieldStart⟩ := by
  simp [csvStep]

/-- Helper: newline ends an unquoted field and the record. -/
theorem stepUnq_nl (recs : List (List PyStr)) (fields : List PyStr) (cur : PyStr) :
    csvStep ⟨recs, fields, cur, .unquoted⟩ '\n' = ⟨recs ++ [fields ++ [cur]], [], [], .start⟩ := by
  simp [csvStep]

/-- Helper: delimiter after a closing quote ends the field. -/
theorem stepAQ_comma (recs : List (List PyStr)) (fields : List PyStr) (cur : PyStr) :
    csvStep ⟨recs, fields, cur, .afterQuote⟩ ',' = ⟨recs, fields ++ [cur], [], .fieldStart⟩ := by
  simp [csvStep]

/-- Helper: newline after a closing quote ends field and record. -/
theorem stepAQ_nl (recs : List (List PyStr)) (fields : List PyStr) (cur : PyStr) :
    csvStep ⟨recs, fields, cur, .afterQuote⟩ '\n' = ⟨recs ++ [fields ++ [cur]], [], [], .start⟩ := by
  simp [csvStep]

/-- Helper: newline at record start yields an empty record. -/
theorem stepStart_nl (recs : List (List PyStr)) (fields : List PyStr) (cur : PyStr) :
    csvStep ⟨recs, fields, cur, .start⟩ '\n' = ⟨recs ++ [[]], [], [], .start⟩ := by
  simp [csvStep]

/-- Helper: delimiter at record start opens a record with one empty field. -/
theorem stepStart_comma (recs : List (List PyStr)) (fields : List PyStr) (cur : PyStr) :
    csvStep ⟨recs, fields, cur, .start⟩ ',' = ⟨recs, [[]], [], .fieldStart⟩ := by
  simp [csvStep]

/-- Helper: a run of unquoted-safe characters is copied into the current
field verbatim. -/
theorem stepUnquotedRun (l : List Char) : ∀ (recs : List (List PyStr)) (fields : List PyStr)
    (cur : PyStr), (∀ c ∈ l, c ≠ ',' ∧ c ≠ '\r' ∧ c ≠ '\n') →
    List.foldl csvStep ⟨recs, fields, cur, .unquoted⟩ l = ⟨recs, fields, cur ++ l, .unquoted⟩ := by
  induction l with
  | nil => intro recs fields cur _; simp
  | cons c t ih =>
    intro recs fields cur h
    obtain ⟨h1, h2, h3⟩ := h c (by simp)
    rw [List.foldl_cons]
    rw [show csvStep ⟨recs, fields, cur, .unquoted⟩ c = ⟨recs, fields, cur ++ [c], .unquoted⟩ from
      by simp [csvStep, h1, h2, h3]]
    rw [ih recs fields (cur ++ [c]) (fun d hd => h d (by simp [hd]))]
    simp

/-- Helper: the quote-doubled body of a quoted field is decoded back to the
original field characters. -/
theorem stepQuotedRun (f : PyStr) : ∀ (recs : List (List PyStr)) (fields : List PyStr)
    (cur : PyStr),
    List.foldl csvStep ⟨recs, fields, cur, .quoted⟩ (escQuote f) = ⟨recs, fields, cur ++ f, .quoted⟩ := by
  induction f with
  | nil => intro recs fields cur; simp [escQuote]
  | cons c t ih =>
    intro recs fields cur
    by_cases hc : c = '"'
    · subst hc
      rw [show escQuote ('"' :: t) = '"' :: '"' :: escQuote t from by simp [escQuote]]
      rw [List.foldl_cons, List.foldl_cons]
      rw [show csvStep ⟨recs, fields, cur, .quoted⟩ '"' = ⟨recs, fields, cur, .afterQuote⟩ from
        by simp [csvStep]]
      rw [show csvStep ⟨recs, fields, cur, .afterQuote⟩ '"' =
          ⟨recs, fields, cur ++ ['"'], .quoted⟩ from by simp [csvStep]]
      rw [ih]
      simp
    · rw [show escQuote (c :: t) = c :: escQuote t from by simp [escQuote, hc]]
      rw [List.foldl_cons]
      rw [show csvStep ⟨recs, fields, cur, .quoted⟩ c = ⟨recs, fields, cur ++ [c], .quoted⟩ from
        by simp [csvStep, hc]]
      rw [ih]
      simp

/-- Helper: consuming one encoded field from the field-start mode leaves the
parser holding exactly that field, in one of three waiting shapes. -/
theorem fieldRunFS (f : PyStr) (recs : List (List PyStr)) (fields : List PyStr) :
    (f = [] ∧ List.foldl csvStep ⟨recs, fields, [], .fieldStart⟩ (escapeField f) =
        ⟨recs, fields, [], .fieldStart⟩) ∨
    (needsQuote f = false ∧ List.foldl csvStep ⟨recs, fields, [], .fieldStart⟩ (escapeField f) =
        ⟨recs, fields, f, .unquoted⟩) ∨
    (needsQuote f = true ∧ List.foldl csvStep ⟨recs, fields, [], .fieldStart⟩ (escapeField f) =
        ⟨recs, fields, f, .afterQuote⟩) := by
  by_cases hq : needsQuote f
  · right; right
    refine ⟨hq, ?_⟩
    rw [show escapeField f = '"' :: (escQuote f ++ ['"']) from by simp [escapeField, hq]]
    rw [List.foldl_cons]
    rw [show csvStep ⟨recs, fields, [], .fieldStart⟩ '"' = ⟨recs, fields, [], .quoted⟩ from
      by simp [csvStep]]
    rw [List.foldl_append, stepQuotedRun]
    simp only [List.foldl_cons, List.foldl_nil, List.nil_append]
    simp [csvStep]
  · cases f with
    | nil =>
      left
      refine ⟨rfl, ?_⟩
      rw [show escapeField [] = [] from by simp [escapeField, needsQuote]]
      simp
    | cons c t =>
      right; left
      have hqf : needsQuote (c :: t) = false := by simpa using hq
      refine ⟨hqf, ?_⟩
      have hsafe := safe_of_not_needsQuote (c :: t) hqf
      obtain ⟨h1, h2, h3, h4⟩ := hsafe c (by simp)
      rw [show escapeField (c :: t) = c :: t from by simp [escapeField, hqf]]
      rw [List.foldl_cons]
      rw [show csvStep ⟨recs, fields, [], .fieldStart⟩ c = ⟨recs, fields, [c], .unquoted⟩ from
        by simp [csvStep, h1, h2, h3, h4]]
      rw [stepUnquotedRun t recs fields [c]
        (fun d hd => ⟨(hsafe d (by simp [hd])).1, (hsafe d (by simp [hd])).2.2.1,
          (hsafe d (by simp [hd])).2.2.2⟩)]
      simp

/-- Helper: same as `fieldRunFS` but entering at record start, for a
nonempty first field (the empty first field never consumes a character). -/
theorem fieldRunStart (f : PyStr) (recs : List (List PyStr)) (hne : f ≠ []) :
    (needsQuote f = false ∧ List.foldl csvStep ⟨recs, [], [], .start⟩ (escapeField f) =
        ⟨recs, [], f, .unquoted⟩) ∨
    (needsQuote f = true ∧ List.foldl csvStep ⟨recs, [], [], .start⟩ (escapeField f) =
        ⟨recs, [], f, .afterQuote⟩) := by
  by_cases hq : needsQuote f
  · right
    refine ⟨hq, ?_⟩
    rw [show escapeField f = '"' :: (escQuote f ++ ['"']) from by simp [escapeField, hq]]
    rw [List.foldl_cons]
    rw [show csvStep ⟨recs, [], [], .start⟩ '"' = ⟨recs, [], [], .quoted⟩ from by simp [csvStep]]
    rw [List.foldl_append, stepQuotedRun]
    simp only [List.foldl_cons, List.foldl_nil, List.nil_append]
    simp [csvStep]
  · cases f with
    | nil => exact absurd rfl hne
    | cons c t =>
      left
      have hqf : needsQuote (c :: t) = false := by simpa using hq
      refine ⟨hqf, ?_⟩
      have hsafe := safe_of_not_needsQuote (c :: t) hqf
      obtain ⟨h1, h2, h3, h4⟩ := hsafe c (by simp)
      rw [show escapeField (c :: t) = c :: t from by simp [escapeField, hqf]]
      rw [List.foldl_cons]
      rw [show csvStep ⟨recs, [], [], .start⟩ c = ⟨recs, [], [c], .unquoted⟩ from
        by simp [csvStep, h1, h2, h3, h4]]
      rw [stepUnquotedRun t recs [] [c]
        (fun d hd => ⟨(hsafe d (by simp [hd])).1, (hsafe d (by simp [hd])).2.2.1,
          (hsafe d (by simp [hd])).2.2.2⟩)]
      simp

/-- Helper: the universal-newline translation of a `'\r\n'` pair. -/
theorem univNewlines_crlf (t : List Char) :
    univNewlines ('\r' :: '\n' :: t) = '\n' :: univNewlines t := by
  rfl

/-- Helper: the translation leaves a list starting with an ordinary
character alone apart from its tail. -/
theorem univNewlines_cons_ne (c : Char) (t : List Char) (hc : c ≠ '\r') :
    univNewlines (c :: t) = c :: univNewlines t := by
  cases t with
  | nil => simp [univNewlines, hc]
  | cons d t2 => simp [univNewlines, hc]

/-- Helper: the translation passes a carriage-return-free block through
unchanged. -/
theorem univNewlines_append_no_cr (l rest : List Char) (h : '\r' ∉ l) :
    univNewlines (l ++ rest) = l ++ univNewlines rest := by
  induction l with
  | nil => rfl
  | cons c t ih =>
    have hc : c ≠ '\r' := by
      intro he
      exact h (by simp [he])
    have ht : '\r' ∉ t := fun hm => h (List.mem_cons_of_mem _ hm)
    show univNewlines (c :: (t ++ rest)) = c :: (t ++ univNewlines rest)
    rw [univNewlines_cons_ne c _ hc, ih ht]

/-- Helper: quote doubling introduces no carriage return. -/
theorem escQuote_no_cr (f : PyStr) (h : '\r' ∉ f) : '\r' ∉ escQuote f := by
  induction f with
  | nil => simp [escQuote]
  | cons c t ih =>
    have hc : ¬('\r' = c) := by
      intro he
      exact h (by simp [← he])
    have ht : '\r' ∉ t := fun hm => h (List.mem_cons_of_mem _ hm)
    unfold escQuote
    by_cases hq : c = '"'
    · subst hq
      intro hmem
      rcases List.mem_cons.mp hmem with he | hmem2
      · cases he
      · rcases List.mem_cons.mp hmem2 with he | hmem3
        · cases he
        · exact ih ht hmem3
    · rw [if_neg hq]
      intro hmem
      rcases List.mem_cons.mp hmem with he | hmem2
      · exact hc he
      · exact ih ht hmem2

/-- Helper: escaping a carriage-return-free field yields carriage-return-free
text. -/
theorem escapeField_no_cr (f : PyStr) (h : '\r' ∉ f) : '\r' ∉ escapeField f := by
  unfold escapeField
  split
  · intro hmem
    rcases List.mem_cons.mp hmem with he | hmem2
    · cases he
    · rcases List.mem_append.mp hmem2 with hmem3 | hmem3
      · exact escQuote_no_cr f h hmem3
      · simp at hmem3
  · exact h

/-- Helper: encoding a record of carriage-return-free fields yields
carriage-return-free text. -/
theorem encodeRecord_no_cr (r : List PyStr) (h : ∀ f ∈ r, '\r' ∉ f) :
    '\r' ∉ encodeRecord r := by
  induction r with
  | nil => simp [encodeRecord]
  | cons f fs ih =>
    cases fs with
    | nil =>
      rw [show encodeRecord [f] = escapeField f from rfl]
      exact escapeField_no_cr f (h f (by simp))
    | cons g t =>
      rw [show encodeRecord (f :: g :: t) = escapeField f ++ ',' :: encodeRecord (g :: t) from rfl]
      intro hmem
      rcases List.mem_append.mp hmem with hmem2 | hmem2
      · exact escapeField_no_cr f (h f (by simp)) hmem2
      · rcases List.mem_cons.mp hmem2 with he | hmem3
        · cases he
        · exact ih (fun x hx => h x (List.mem_cons_of_mem _ hx)) hmem3

/-- Helper: a nonempty tail of encoded fields followed by the translated
`'\n'` terminator is parsed into exactly those fields, appended to the
fields already finished. -/
theorem recTail (fs : List PyStr) : ∀ (recs : List (List PyStr)) (fields : List PyStr)
    (rest : List Char), fs ≠ [] →
    List.foldl csvStep ⟨recs, fields, [], .fieldStart⟩ (encodeRecord fs ++ '\n' :: rest) =
      List.foldl csvStep ⟨recs ++ [fields ++ fs], [], [], .start⟩ rest := by
  induction fs with
  | nil => intro _ _ _ h; exact absurd rfl h
  | cons f fs ih =>
    intro recs fields rest _
    cases fs with
    | nil =>
      rw [show encodeRecord [f] = escapeField f from rfl, List.foldl_append]
      rcases fieldRunFS f recs fields with ⟨hf, hrun⟩ | ⟨_, hrun⟩ | ⟨_, hrun⟩ <;>
        rw [hrun] <;> simp only [List.foldl_cons]
      · subst hf
        rw [stepFS_nl]
      · rw [stepUnq_nl]
      · rw [stepAQ_nl]
    | cons g t =>
      have hgt : (g :: t : List PyStr) ≠ [] := by simp
      rw [show encodeRecord (f :: g :: t) = escapeField f ++ ',' :: encodeRecord (g :: t) from rfl]
      rw [show (escapeField f ++ ',' :: encodeRecord (g :: t)) ++ '\n' :: rest =
          escapeField f ++ (',' :: (encodeRecord (g :: t) ++ '\n' :: rest)) from by simp]
      rw [List.foldl_append]
      rcases fieldRunFS f recs fields with ⟨hf, hrun⟩ | ⟨_, hrun⟩ | ⟨_, hrun⟩ <;>
        rw [hrun] <;> simp only [List.foldl_cons]
      · subst hf
        rw [stepFS_comma, ih recs (fields ++ [[]]) rest hgt]
        simp
      · rw [stepUnq_comma, ih recs (fields ++ [f]) rest hgt]
        simp
      · rw [stepAQ_comma, ih recs (fields ++ [f]) rest hgt]
        simp

/-- Helper: one encoded record (other than the inexpressible `[""]`)
followed by the translated `'\n'` terminator is parsed back into exactly
that record. -/
theorem recordAtStart (r : List PyStr) (recs : List (List PyStr)) (rest : List Char)
    (hr : r ≠ [[]]) :
    List.foldl csvStep ⟨recs, [], [], .start⟩ (encodeRecord r ++ '\n' :: rest) =
      List.foldl csvStep ⟨recs ++ [r], [], [], .start⟩ rest := by
  cases r with
  | nil =>
    rw [show encodeRecord [] = [] from rfl]
    simp only [List.nil_append, List.foldl_cons]
    rw [stepStart_nl]
  | cons f fs =>
    cases fs with
    | nil =>
      have hf : f ≠ [] := by
        intro h
        rw [h] at hr
        exact hr rfl
      rw [show encodeRecord [f] = escapeField f from rfl, List.foldl_append]
      rcases fieldRunStart f recs hf with ⟨_, hrun⟩ | ⟨_, hrun⟩ <;>
        rw [hrun] <;> simp only [List.foldl_cons]
      · rw [stepUnq_nl]
        simp
      · rw [stepAQ_nl]
        simp
    | cons g t =>
      have hgt : (g :: t : List PyStr) ≠ [] := by simp
      rw [show encodeRecord (f :: g :: t) = escapeField f ++ ',' :: encodeRecord (g :: t) from rfl]
      rw [show (escapeField f ++ ',' :: encodeRecord (g :: t)) ++ '\n' :: rest =
          escapeField f ++ (',' :: (encodeRecord (g :: t) ++ '\n' :: rest)) from by simp]
      rw [List.foldl_append]
      by_cases hf : f = []
      · subst hf
        rw [show escapeField [] = [] from by simp [escapeField, needsQuote]]
        simp only [List.foldl_nil, List.foldl_cons]
        rw [stepStart_comma, recTail (g :: t) recs [[]] rest hgt]
        simp
      · rcases fieldRunStart f recs hf with ⟨_, hrun⟩ | ⟨_, hrun⟩ <;>
          rw [hrun] <;> simp only [List.foldl_cons]
        · rw [stepUnq_comma, recTail (g :: t) recs ([] ++ [f]) rest hgt]
          simp
        · rw [stepAQ_comma, recTail (g :: t) recs ([] ++ [f]) rest hgt]
          simp

/-- Helper: a whole written file, passed through the universal-newline
translation of text-mode reading, is scanned back into its records when no
field contains a carriage return. -/
theorem fileRun (rows : List (List PyStr)) : ∀ (recs : List (List PyStr)),
    (∀ r ∈ rows, r ≠ [[]]) → (∀ r ∈ rows, ∀ f ∈ r, '\r' ∉ f) →
    List.foldl csvStep ⟨recs, [], [], .start⟩ (univNewlines (encodeFile rows)) =
      ⟨recs ++ rows, [], [], .start⟩ := by
  induction rows with
  | nil => intro recs _ _; simp [encodeFile, univNewlines]
  | cons r rs ih =>
    intro recs h hcr
    rw [show encodeFile (r :: rs) = encodeRecord r ++ '\r' :: '\n' :: encodeFile rs from rfl]
    rw [univNewlines_append_no_cr (encodeRecord r) _ (encodeRecord_no_cr r (hcr r (by simp)))]
    rw [univNewlines_crlf]
    rw [recordAtStart r recs (univNewlines (encodeFile rs)) (h r (by simp))]
    rw [ih (recs ++ [r]) (fun x hx => h x (by simp [hx])) (fun x hx => hcr x (by simp [hx]))]
    simp

/-- Helper: the CSV writer, followed by text-mode reading (universal-newline
translation, then `csv.reader`), is the identity on records whose fields
are free of carriage returns — `'\r'` inside a field is rewritten to `'\n'`
by the translation, and the record `[""]` writes as a blank line, which
reads back as the empty record. -/
theorem parse_encodeFile (rows : List (List PyStr)) (h : ∀ r ∈ rows, r ≠ [[]])
    (hcr : ∀ r ∈ rows, ∀ f ∈ r, '\r' ∉ f) :
    parseCSV (univNewlines (encodeFile rows)) = rows := by
  unfold parseCSV
  rw [fileRun rows [] h hcr]
  simp [csvFinish]

/-- Helper: `int()` succeeds on a nonempty all-decimal string without sign. -/
theorem pyInt_digits (f : PyStr) (hne : f ≠ []) (hdec : f.all pyCharIsDecimal = true)
    (hh : ∀ c, f.head? = some c → c ≠ '-' ∧ c ≠ '+') :
    pyInt f = some ((digitsToNat f : Int)) := by
  cases f with
  | nil => exact absurd rfl hne
  | cons c t =>
    obtain ⟨h1, h2⟩ := hh c rfl
    unfold pyInt
    split
    · rename_i t' heq
      simp only [List.cons.injEq] at heq
      exact absurd heq.1 h1
    · rename_i t' heq
      simp only [List.cons.injEq] at heq
      exact absurd heq.1 h2
    · rw [if_pos ⟨hne, hdec⟩]

/-- Helper: on a safe field `_maybe_to_number` returns without raising and
computes exactly `coerceField`: integers for all-decimal fields, the
unchanged string otherwise — in particular the float branch never fires,
because a string containing `'.'` never passes `isdigit()`. -/
theorem maybe_to_number_safe (f : PyStr) (hs : fieldSafe f) :
    maybe_to_number f = .ok (coerceField f) := by
  by_cases hd : pyIsDigit f = true
  · have hdec : f.all pyCharIsDecimal = true := hs hd
    have hne : f ≠ [] := by
      intro h
      rw [h] at hd
      simp [pyIsDigit] at hd
    have hnodot : f.contains '.' = false := by
      cases hcon : f.contains '.'
      · rfl
      · exfalso
        have hmem : '.' ∈ f := by simpa using hcon
        exact absurd (List.all_eq_true.mp hdec '.' hmem) (by decide)
    have hpy : pyInt f = some ((digitsToNat f : Int)) := by
      refine pyInt_digits f hne hdec ?_
      intro c hc
      have hcmem : c ∈ f := by
        cases f with
        | nil => cases hc
        | cons a t =>
          injection hc with hc
          subst hc
          simp
      have hcd := List.all_eq_true.mp hdec c hcmem
      constructor
      · intro h
        rw [h] at hcd
        exact absurd hcd (by decide)
      · intro h
        rw [h] at hcd
        exact absurd hcd (by decide)
    unfold maybe_to_number coerceField
    rw [if_pos hd, if_pos hd, hnodot]
    simp only [Bool.false_eq_true, if_neg, if_false, hpy]
  · unfold maybe_to_number coerceField
    rw [if_neg hd, if_neg hd]

/-- Helper: the error-propagating map returns all values when no element
raises. -/
theorem exceptMapList_ok {α β : Type} (g : α → Except Unit β) (h : α → β) :
    ∀ (l : List α), (∀ a ∈ l, g a = .ok (h a)) →
    exceptMapList g l = .ok (l.map h) := by
  intro l
  induction l with
  | nil => intro _; rfl
  | cons a t ih =>
    intro hall
    unfold exceptMapList
    rw [hall a (by simp), ih (fun x hx => hall x (by simp [hx]))]
    rfl

end PagePaths
